import Mathlib

set_option autoImplicit false

/-! Verification development for the OpenUSD / Microsoft Fabric toolkit
(`openusd_msfabric_toolkit.py`).  The core pipeline is shallowly embedded:
the fuzzy entity resolver (`get_best_match`, `fuzzy_match_usd_assets`),
the scene-metadata extractor (`read_usd_metadata`), and the enrichment
writer (`enrich_usd_with_dtb_assets`).  Python strings are modelled as
lists of characters. -/

/-- Python strings, modelled as lists of characters. -/
abbrev Str := List Char

/-! Model of the external similarity library (`thefuzz.fuzz` /
`fuzzywuzzy.fuzz` with the python-Levenshtein / rapidfuzz backend, as
pinned by `setup.py`).  With this backend `fuzz.ratio a b` is the
normalised indel similarity `200 * lcs(a, b) / (len a + len b)` rounded
half-to-even to an integer (Python `int(round ...)`), where `lcs` is the
longest-common-subsequence length; two empty strings score 100.
`fuzz.token_sort_ratio` first applies `utils.full_process` (drop
non-ASCII characters, replace non-word characters by spaces, lowercase,
strip), splits into whitespace-delimited tokens, sorts the tokens,
rejoins them with single spaces, and then applies `fuzz.ratio`. -/

/-- Inner loop of the longest-common-subsequence length: `lcsAs` is the
LCS function against the tail `as` of the first string, and the
recursion structurally consumes the second string.  Written this way so
that the definition is structurally recursive and kernel-reducible. -/
def lcsInner (a : Char) (lcsAs : Str → Nat) : Str → Nat
  | [] => 0
  | b :: bs =>
    if a = b then lcsAs bs + 1
    else max (lcsInner a lcsAs bs) (lcsAs (b :: bs))

/-- Longest-common-subsequence length of two character lists. -/
def lcsLen : Str → Str → Nat
  | [], _ => 0
  | a :: as, b => lcsInner a (lcsLen as) b

/-- Round the rational `num / den` to the nearest natural number, halves
to even: the behaviour of Python's built-in `round` on a non-negative
rational. -/
def roundHalfEven (num den : Nat) : Nat :=
  let q := num / den
  let r := num % den
  if 2 * r < den then q
  else if den < 2 * r then q + 1
  else if q % 2 = 0 then q else q + 1

/-- Model of `fuzz.ratio`: normalised indel similarity on a 0–100 scale. -/
def fuzzRatio (a b : Str) : Nat :=
  let t := a.length + b.length
  if t = 0 then 100 else roundHalfEven (200 * lcsLen a b) t

/-- Model of `thefuzz.utils.full_process` with `force_ascii`: drop
non-ASCII characters, map every non-word character (not alphanumeric,
not underscore) to a space, and lowercase.  Stripping is subsumed by the
subsequent whitespace tokenisation. -/
def full_process (s : Str) : Str :=
  (s.filter fun ch => decide (ch.toNat < 128)).map fun ch =>
    if ch.isAlphanum || ch = '_' then ch.toLower else ' '

/-- Split a character list on a separator character; mirrors the
behaviour of Java/Spark `split` with unlimited limit and of Lean's
`String.splitOn` for a single-character separator: the result is always
non-empty and empty segments are kept. -/
def splitOnChar (sep : Char) : Str → List Str
  | [] => [[]]
  | c :: rest =>
    if c = sep then [] :: splitOnChar sep rest
    else
      match splitOnChar sep rest with
      | [] => [[c]]
      | s :: ss => (c :: s) :: ss

/-- Model of Python `str.split()` on an already-processed string whose
only whitespace is the space character: split on spaces and drop empty
tokens. -/
def wordsOf (s : Str) : List Str :=
  (splitOnChar ' ' s).filter fun w => !w.isEmpty

/-- Lexicographic (code-point) comparison of strings, as used by Python
`sorted` on strings. -/
def strLe : Str → Str → Bool
  | [], _ => true
  | _ :: _, [] => false
  | a :: as, b :: bs => if a = b then strLe as bs else decide (a < b)

/-- Insert a string into a sorted list of strings (stable). -/
def insertSorted (x : Str) : List Str → List Str
  | [] => [x]
  | y :: ys => if strLe x y then x :: y :: ys else y :: insertSorted x ys

/-- Stable insertion sort of a token list, modelling Python `sorted`. -/
def sortTokens : List Str → List Str
  | [] => []
  | x :: xs => insertSorted x (sortTokens xs)

/-- Join tokens with single spaces, modelling `" ".join tokens`. -/
def joinSpace (ws : List Str) : Str := List.intercalate [' '] ws

/-- The processed, token-sorted form of a string used by
`fuzz.token_sort_ratio`. -/
def token_sort_key (s : Str) : Str :=
  joinSpace (sortTokens (wordsOf (full_process s)))

/-- Model of `fuzz.token_sort_ratio`. -/
def token_sort_ratio (a b : Str) : Nat :=
  fuzzRatio (token_sort_key a) (token_sort_key b)

/-! Embedding of the fuzzy resolver (source lines 109–165).  The Python
closure `get_best_match` scans the broadcast reference list keeping a
running `(best_match, best_score)` pair, starting from `(None, 0)` and
replacing it whenever a strictly greater score is seen; at the end it
returns `best_match` if `best_score >= threshold` and `None` otherwise. -/

/-- One iteration of the loop body of `get_best_match`
(source lines 136–140). -/
def scan_step (f : Str → Nat) (best : Option Str × Nat) (candidate : Str) :
    Option Str × Nat :=
  let score := f candidate
  if best.2 < score then (some candidate, score) else best

/-- Embedding of the `get_best_match` closure (source lines 133–141):
`broadcast_assets` is the broadcast reference list and `threshold` the
enclosing function's threshold argument. -/
def get_best_match (broadcast_assets : List Str) (threshold : Nat)
    (usd_asset_id : Str) : Option Str :=
  let r := broadcast_assets.foldl
    (scan_step (token_sort_ratio usd_asset_id)) (none, 0)
  if threshold ≤ r.2 then r.1 else none

/-- Embedding of `fuzzy_match_usd_assets` (source lines 109–165): the
USDAssetID column is mapped through `get_best_match`; rows with a
present match form the returned matched set, rows with an absent match
form the reported unmatched list. -/
def fuzzy_match_usd_assets (usd_ids : List Str) (asset_list : List Str)
    (threshold : Nat) : List (Str × Str) × List Str :=
  let matched := usd_ids.map fun u => (u, get_best_match asset_list threshold u)
  let result := matched.filterMap fun x => x.2.map fun d => (x.1, d)
  let unmatched := (matched.filter fun x => x.2.isNone).map (·.1)
  (result, unmatched)

/-- The best similarity score a candidate attains over a reference list
(0 for the empty list); the spec's "best score over the reference set". -/
def listMax (l : List Nat) : Nat := l.foldl max 0

/-- The maximum `token_sort_ratio` score of candidate `c` over `assets`. -/
def bestScoreOf (c : Str) (assets : List Str) : Nat :=
  listMax (assets.map (token_sort_ratio c))

/-- Modelled from the spec: the `score` field of the emitted MatchResult
("emit MatchResult(c, r*, score) if score(c,r*) ≥ T, else
MatchResult(c, absent, 0)").  The code emits only the matched
identifier, so the emitted score is the best score when a match is
present and 0 when it is absent. -/
def matchScore (assets : List Str) (threshold : Nat) (c : Str) : Nat :=
  match get_best_match assets threshold c with
  | some _ => bestScoreOf c assets
  | none => 0

/-! Embedding of the enrichment writer `enrich_usd_with_dtb_assets`
(source lines 219–251).  The joined matched set is a list of
(sourcePath, DTBAssetID) rows; for each row the prim at that path — if
present and valid — gets a string attribute DTB_ID created (or reused)
and set, which overwrites any previous value; a missing or invalid prim
only logs a warning and is skipped. -/

/-- A USD prim as the enrichment writer sees it: a path, a type name,
and its attributes as an association list of (name, value). -/
structure Prim where
  path : String
  typeName : String
  attrs : List (String × String)
  deriving DecidableEq

/-- The fixed attribute name written by the enrichment writer
(source line 242). -/
def dtbAttrName : String := "DTB_ID"

/-- `prim.CreateAttribute(name, String)` followed by `attr.Set(value)`:
overwrite the value of the attribute if one of that name exists,
otherwise append a new attribute. -/
def setVal : List (String × String) → String → String → List (String × String)
  | [], n, v => [(n, v)]
  | (k, x) :: rest, n, v =>
    if k = n then (k, v) :: rest else (k, x) :: setVal rest n v

/-- Write the DTB_ID attribute of one prim. -/
def setDTB (p : Prim) (v : String) : Prim :=
  { p with attrs := setVal p.attrs dtbAttrName v }

/-- Process one matched row (sourcePath, DTBAssetID): the prim at that
path, if any, gets its DTB_ID attribute set (source lines 236–246).
USD stages have unique prim paths, so updating every prim whose path
matches coincides with `stage.GetPrimAtPath`; when no prim has the path
the stage is unchanged (the code logs a warning and skips). -/
def enrichStep (st : List Prim) (row : String × String) : List Prim :=
  st.map fun pr => if pr.path = row.1 then setDTB pr row.2 else pr

/-- Embedding of `enrich_usd_with_dtb_assets` (source lines 219–251):
fold all matched rows over the stage. -/
def enrich_usd_with_dtb_assets (st : List Prim)
    (matched : List (String × String)) : List Prim :=
  matched.foldl enrichStep st

/-- The effect of a whole matched-row list on a single prim. -/
def applyRows (pr : Prim) (matched : List (String × String)) : Prim :=
  matched.foldl (fun q row => if q.path = row.1 then setDTB q row.2 else q) pr

/-- The last DTB value a matched-row list writes for a given path. -/
def lastWriteFor (path : String) (matched : List (String × String)) :
    Option String :=
  ((matched.filter fun row => decide (row.1 = path)).map (·.2)).getLast?

/-- Number of attributes of a given name carried by an attribute list. -/
def countAttr (n : String) (l : List (String × String)) : Nat :=
  (l.filter fun e => decide (e.1 = n)).length

/-- Attribute lookup by name, modelling `prim.GetAttribute(name).Get()`. -/
def lookupAttr (n : String) : List (String × String) → Option String
  | [] => none
  | (k, v) :: rest => if k = n then some v else lookupAttr n rest

/-! Embedding of the scene metadata extractor `read_usd_metadata`
(source lines 26–74).  The stage traversal yields prims; those of type
Xform contribute a row (sourcePath, USDAssetID), where USDAssetID is
computed on line 66 by splitting sourcePath on '/' and taking the item
at index (size - 1), i.e. the last item of the split. -/

/-- The extractor's USDAssetID derivation (source line 66): Spark
`F.split(col, "/").getItem(F.size(F.split(col, "/")) - 1)`, the last
item of the split.  The split of any string is non-empty, so the
`getD` default is never used. -/
def USDAssetID_of (p : Str) : Str :=
  ((splitOnChar '/' p).getLast?).getD []

/-- Modelled from the spec: "take the node's path, split on '/', take
the last non-empty segment"; compared against `USDAssetID_of`. -/
def lastNonEmptySegment (p : Str) : Option Str :=
  ((splitOnChar '/' p).filter fun s => !s.isEmpty).getLast?

/-- Model of the pxr collaborator's prim paths: a prim is addressed by
a non-empty list of path segments (each a non-empty name without '/'),
and `prim.GetPath().pathString` is the segments each prefixed by '/'
(for example the segments ["World", "Pump101"] give "/World/Pump101"). -/
def primPathString (segs : List Str) : Str :=
  (segs.map fun seg => '/' :: seg).flatten

/-- The type-name filter used by the extractor (source line 51). -/
def xformTypeName : Str := ['X', 'f', 'o', 'r', 'm']

/-- Validity of a traversal prim as guaranteed by the pxr collaborator:
the segment list is non-empty and every segment is a non-empty name
containing no '/'. -/
def ValidPrim (pr : List Str × Str) : Prop :=
  pr.1 ≠ [] ∧ ∀ seg ∈ pr.1, seg ≠ [] ∧ ∀ ch ∈ seg, ch ≠ '/'

instance (pr : List Str × Str) : Decidable (ValidPrim pr) := by
  unfold ValidPrim; infer_instance

/-- Embedding of the row-building part of `read_usd_metadata` (source
lines 48–67): keep the prims whose type name is Xform and emit the row
(sourcePath, USDAssetID). -/
def read_usd_metadata_rows (prims : List (List Str × Str)) :
    List (Str × Str) :=
  (prims.filter fun pr => decide (pr.2 = xformTypeName)).map
    fun pr => (primPathString pr.1, USDAssetID_of (primPathString pr.1))

/-- Embedding of `read_usd_metadata` including the stage-opening step
(source lines 27–74): `Usd.Stage.Open` (line 30) either yields a stage
— modelled by its traversal, a prim list — or raises a library error.
`read_usd_metadata` contains no handler around the opening (unlike
`read_entity_instances`, `process_contextualization_job_results` and
`print_usd_file_details`), so in the error case the library error
propagates unchanged to the caller. -/
def read_usd_metadata (openResult : Except String (List (List Str × Str))) :
    Except String (List (Str × Str)) :=
  match openResult with
  | Except.error e => Except.error e
  | Except.ok prims => Except.ok (read_usd_metadata_rows prims)

/-- A one-prim sample stage used to instantiate theorems with
hypotheses at concrete inputs. -/
def sampleStage : List Prim :=
  [{ path := "/World/Pump101", typeName := "Xform", attrs := [("radius", "1")] }]

/-- A sample matched-row list for the sample stage. -/
def sampleMatched : List (String × String) :=
  [("/World/Pump101", "DTB-9")]

/-- A sample attribute name distinct from DTB_ID. -/
def sampleAttrName : String := "radius"

/-- A sample traversal result with one Xform prim at "/World/Pump". -/
def samplePrims : List (List Str × Str) :=
  [([['W', 'o', 'r', 'l', 'd'], ['P', 'u', 'm', 'p']], xformTypeName)]

/-- The textbook defining equation of `lcsLen` on two cons cells. -/
theorem lcsLen_cons_cons (a b : Char) (as bs : Str) :
    lcsLen (a :: as) (b :: bs) =
      if a = b then lcsLen as bs + 1
      else max (lcsLen (a :: as) bs) (lcsLen as (b :: bs)) := rfl

theorem lcsLen_nil_left (b : Str) : lcsLen [] b = 0 := rfl

theorem lcsLen_nil_right (a : Str) : lcsLen a [] = 0 := by
  cases a <;> rfl

/-! Basic facts about `listMax`. -/

theorem foldl_max_eq (l : List Nat) :
    ∀ a : Nat, l.foldl max a = max a (listMax l) := by
  induction l with
  | nil => intro a; simp [listMax]
  | cons x l ih =>
    intro a
    show List.foldl max (max a x) l = max a (listMax (x :: l))
    rw [ih (max a x)]
    have h2 : listMax (x :: l) = max x (listMax l) := by
      show List.foldl max (max 0 x) l = max x (listMax l)
      rw [ih (max 0 x), Nat.zero_max]
    rw [h2, Nat.max_assoc]

theorem listMax_cons (x : Nat) (l : List Nat) :
    listMax (x :: l) = max x (listMax l) := by
  show List.foldl max (max 0 x) l = max x (listMax l)
  rw [foldl_max_eq l (max 0 x), Nat.zero_max]

theorem le_listMax_of_mem {x : Nat} {l : List Nat} (h : x ∈ l) :
    x ≤ listMax l := by
  induction l with
  | nil => cases h
  | cons y l ih =>
    rcases List.mem_cons.mp h with rfl | h'
    · rw [listMax_cons]; exact Nat.le_max_left _ _
    · rw [listMax_cons]; exact Nat.le_trans (ih h') (Nat.le_max_right _ _)

theorem listMax_le {l : List Nat} {n : Nat} (h : ∀ x ∈ l, x ≤ n) :
    listMax l ≤ n := by
  induction l with
  | nil => exact Nat.zero_le _
  | cons y l ih =>
    rw [listMax_cons]
    exact Nat.max_le.mpr ⟨h y (List.mem_cons_self y l), ih fun x hx => h x (List.mem_cons_of_mem _ hx)⟩

theorem listMax_eq_zero_or_mem (l : List Nat) :
    listMax l = 0 ∨ listMax l ∈ l := by
  induction l with
  | nil => exact Or.inl rfl
  | cons y l ih =>
    rw [listMax_cons]
    rcases max_choice y (listMax l) with h | h
    · rw [h]
      exact Or.inr (List.mem_cons_self y l)
    · rw [h]
      rcases ih with h0 | hm
      · exact Or.inl h0
      · exact Or.inr (List.mem_cons_of_mem _ hm)

/-! Characterisation of the best-match scan: the final `best_score` is
the maximum score over the reference list (or the starting score when
that is at least the maximum), and the final `best_match` is the first
reference attaining that maximum, `none` when no reference strictly
exceeds the starting score. -/

theorem scan_foldl (f : Str → Nat) (assets : List Str) :
    ∀ (m : Option Str) (s : Nat),
      assets.foldl (scan_step f) (m, s) =
        if listMax (assets.map f) ≤ s then (m, s)
        else (assets.find? (fun r => decide (listMax (assets.map f) ≤ f r)),
              listMax (assets.map f)) := by
  induction assets with
  | nil =>
    intro m s
    simp [listMax]
  | cons a rest ih =>
    intro m s
    have hM : listMax (List.map f (a :: rest)) =
        max (f a) (listMax (List.map f rest)) := by
      rw [List.map_cons, listMax_cons]
    rw [List.foldl_cons]
    rcases Nat.lt_or_ge s (f a) with hlt | hge
    · rw [show scan_step f (m, s) a = (some a, f a) from by
        simp only [scan_step]; rw [if_pos hlt], ih]
      rcases le_or_lt (listMax (List.map f rest)) (f a) with h1 | h1
      · have hMa : listMax (List.map f (a :: rest)) = f a := by
          rw [hM]; exact max_eq_left h1
        rw [if_pos h1]
        simp only [hMa]
        rw [if_neg (by omega)]
        rw [List.find?_cons_of_pos _ (by simp)]
      · have hMa : listMax (List.map f (a :: rest)) = listMax (List.map f rest) := by
          rw [hM]; exact max_eq_right (Nat.le_of_lt h1)
        rw [if_neg (by omega)]
        simp only [hMa]
        rw [if_neg (by omega)]
        rw [List.find?_cons_of_neg _ (by simp only [decide_eq_true_eq]; omega)]
    · rw [show scan_step f (m, s) a = (m, s) from by
        simp only [scan_step]; rw [if_neg (by omega)], ih]
      rcases le_or_lt (listMax (List.map f rest)) s with h1 | h1
      · have hMs : listMax (List.map f (a :: rest)) ≤ s := by
          rw [hM]; exact Nat.max_le.mpr ⟨hge, h1⟩
      -- both sides are the untouched accumulator
        rw [if_pos h1, if_pos hMs]
      · have hMa : listMax (List.map f (a :: rest)) = listMax (List.map f rest) := by
          rw [hM]; exact max_eq_right (by omega)
        rw [if_neg (by omega)]
        simp only [hMa]
        rw [if_neg (by omega)]
        rw [List.find?_cons_of_neg _ (by simp only [decide_eq_true_eq]; omega)]

/-- The shape of `get_best_match` in terms of the spec-side best score:
absent when the best score is 0 or below the threshold, otherwise the
first reference attaining the best score. -/
theorem get_best_match_eq (assets : List Str) (T : Nat) (c : Str) :
    get_best_match assets T c =
      if 0 < bestScoreOf c assets ∧ T ≤ bestScoreOf c assets then
        assets.find? (fun r => decide (bestScoreOf c assets ≤ token_sort_ratio c r))
      else none := by
  unfold get_best_match bestScoreOf
  rw [scan_foldl]
  rcases Nat.eq_zero_or_pos (listMax (assets.map (token_sort_ratio c))) with h0 | h0
  · rw [if_pos (show listMax (List.map (token_sort_ratio c) assets) ≤ 0 from by omega)]
    dsimp only
    rw [ite_self, if_neg (by omega)]
  · rw [if_neg (show ¬ listMax (List.map (token_sort_ratio c) assets) ≤ 0 from by omega)]
    dsimp only
    rcases le_or_lt T (listMax (assets.map (token_sort_ratio c))) with hT | hT
    · rw [if_pos hT, if_pos ⟨h0, hT⟩]
    · rw [if_neg (by omega), if_neg (by omega)]

/-- When the best score is positive, some reference attains it, so the
`find?` in `get_best_match_eq` succeeds. -/
theorem find_best_isSome {c : Str} {assets : List Str}
    (h : 0 < bestScoreOf c assets) :
    ∃ r, assets.find?
        (fun r => decide (bestScoreOf c assets ≤ token_sort_ratio c r)) = some r := by
  rcases listMax_eq_zero_or_mem (assets.map (token_sort_ratio c)) with h0 | hm
  · exact absurd h0 (by unfold bestScoreOf at h; omega)
  · rcases List.mem_map.mp hm with ⟨r, hr, hfr⟩
    have : ∃ x ∈ assets,
        (fun r => decide (bestScoreOf c assets ≤ token_sort_ratio c r)) x = true := by
      exact ⟨r, hr, by simp [bestScoreOf, hfr]⟩
    rcases List.find?_isSome.mpr this with h'
    exact Option.isSome_iff_exists.mp h'

/-! Bounds on the similarity score. -/

theorem lcsLen_self : ∀ a : Str, lcsLen a a = a.length := by
  intro a
  induction a with
  | nil => rfl
  | cons x as ih => rw [lcsLen_cons_cons, if_pos rfl, ih, List.length_cons]

theorem lcsLen_le_left : ∀ a b : Str, lcsLen a b ≤ a.length := by
  intro a
  induction a with
  | nil => intro b; exact Nat.le_refl 0
  | cons x as ihA =>
    intro b
    induction b with
    | nil => rw [lcsLen_nil_right]; exact Nat.zero_le _
    | cons y bs ihB =>
      rw [lcsLen_cons_cons]
      by_cases h : x = y
      · rw [if_pos h]
        have := ihA bs
        simp only [List.length_cons]
        omega
      · rw [if_neg h]
        have h1 := ihB
        have h2 := ihA (y :: bs)
        simp only [List.length_cons] at *
        omega

theorem lcsLen_le_right : ∀ a b : Str, lcsLen a b ≤ b.length := by
  intro a
  induction a with
  | nil => intro b; exact Nat.zero_le _
  | cons x as ihA =>
    intro b
    induction b with
    | nil => rw [lcsLen_nil_right]; exact Nat.zero_le _
    | cons y bs ihB =>
      rw [lcsLen_cons_cons]
      by_cases h : x = y
      · rw [if_pos h]
        have := ihA bs
        simp only [List.length_cons]
        omega
      · rw [if_neg h]
        have h1 := ihB
        have h2 := ihA (y :: bs)
        simp only [List.length_cons] at *
        omega

theorem roundHalfEven_le {num den bound : Nat} (hden : 0 < den)
    (h : num ≤ bound * den) : roundHalfEven num den ≤ bound := by
  simp only [roundHalfEven]
  have hdm : den * (num / den) + num % den = num := Nat.div_add_mod num den
  have hmodlt : num % den < den := Nat.mod_lt _ hden
  have hq : num / den ≤ bound := by
    have h2 := Nat.div_le_div_right (c := den) h
    rwa [Nat.mul_div_cancel _ hden] at h2
  have hk : den ≤ 2 * (num % den) → num / den < bound := by
    intro h2r
    rcases Nat.lt_or_ge (num / den) bound with h' | h'
    · exact h'
    · exfalso
      have heq : num / den = bound := Nat.le_antisymm hq h'
      rw [heq] at hdm
      rw [Nat.mul_comm bound den] at h
      omega
  split_ifs with h1 h2 h3
  · exact hq
  · have := hk (by omega); omega
  · exact hq
  · have := hk (by omega); omega

theorem roundHalfEven_exact {den q : Nat} (hden : 0 < den) :
    roundHalfEven (q * den) den = q := by
  simp only [roundHalfEven, Nat.mul_div_cancel _ hden, Nat.mul_mod_left]
  rw [if_pos (by omega)]

theorem fuzzRatio_le_100 (a b : Str) : fuzzRatio a b ≤ 100 := by
  simp only [fuzzRatio]
  by_cases ht : a.length + b.length = 0
  · rw [if_pos ht]
  · rw [if_neg ht]
    have h1 := lcsLen_le_left a b
    have h2 := lcsLen_le_right a b
    exact roundHalfEven_le (by omega) (by omega)

theorem fuzzRatio_self (a : Str) : fuzzRatio a a = 100 := by
  simp only [fuzzRatio]
  by_cases ht : a.length + a.length = 0
  · rw [if_pos ht]
  · rw [if_neg ht]
    have he : 200 * lcsLen a a = 100 * (a.length + a.length) := by
      rw [lcsLen_self]; ring
    rw [he]
    exact roundHalfEven_exact (by omega)

theorem token_sort_ratio_le_100 (a b : Str) : token_sort_ratio a b ≤ 100 :=
  fuzzRatio_le_100 _ _

theorem token_sort_ratio_self (a : Str) : token_sort_ratio a a = 100 :=
  fuzzRatio_self _

/-- The best score over a reference list never exceeds 100. -/
theorem bestScoreOf_le_100 (c : Str) (assets : List Str) :
    bestScoreOf c assets ≤ 100 := by
  apply listMax_le
  intro x hx
  rcases List.mem_map.mp hx with ⟨r, _, rfl⟩
  exact token_sort_ratio_le_100 c r

/-! Claim theorems for the fuzzy resolver. -/

/-- Helper: `find?` is unchanged when the predicates agree on the
members of the list. -/
theorem find?_eq_of_agree {α : Type} (p q : α → Bool) (l : List α)
    (h : ∀ x ∈ l, p x = q x) : l.find? p = l.find? q := by
  induction l with
  | nil => rfl
  | cons a l ih =>
    by_cases hp : p a
    · rw [List.find?_cons_of_pos _ hp,
        List.find?_cons_of_pos _ (by rw [← h a (List.mem_cons_self a l)]; exact hp)]
    · rw [List.find?_cons_of_neg _ hp,
        List.find?_cons_of_neg _ (by rw [← h a (List.mem_cons_self a l)]; exact hp),
        ih fun x hx => h x (List.mem_cons_of_mem _ hx)]

/-- C1 counterexample: at threshold 0, candidate "a" against the
reference list ["b"] has best score 0, which is ≥ the threshold, yet
`get_best_match` reports the match as absent — refuting "the matched
identifier is present if and only if the best score over the reference
list is ≥ T". -/
theorem c1_counterexample :
    bestScoreOf ['a'] [['b']] = 0
    ∧ 0 ≤ bestScoreOf ['a'] [['b']]
    ∧ get_best_match [['b']] 0 ['a'] = none := by decide

/-- C1 (amended): for every candidate, reference list and threshold
T ≤ 100, the best score is in [0,100]; the matched identifier is
present iff the best score is ≥ T and strictly positive; and when it is
absent the emitted score is 0. -/
theorem c1_amended_get_best_match (c : Str) (assets : List Str) (T : Nat)
    (hT : T ≤ 100) :
    bestScoreOf c assets ≤ 100
    ∧ ((get_best_match assets T c).isSome ↔
        (T ≤ bestScoreOf c assets ∧ 0 < bestScoreOf c assets))
    ∧ (get_best_match assets T c = none → matchScore assets T c = 0) := by
  refine ⟨bestScoreOf_le_100 c assets, ?_, ?_⟩
  · rw [get_best_match_eq]
    constructor
    · intro h
      by_cases hc : 0 < bestScoreOf c assets ∧ T ≤ bestScoreOf c assets
      · exact ⟨hc.2, hc.1⟩
      · rw [if_neg hc] at h
        cases h
    · rintro ⟨h1, h2⟩
      rw [if_pos ⟨h2, h1⟩]
      rcases find_best_isSome h2 with ⟨r, hr⟩
      rw [hr]
      rfl
  · intro h
    simp only [matchScore, h]

/-- C1 witness. -/
theorem c1_witness : matchScore [['b']] 0 ['a'] = 0 :=
  (c1_amended_get_best_match ['a'] [['b']] 0 (by decide)).2.2 (by decide)

/-- C2 counterexample: candidate "a" against references ["b", "c"] —
both references achieve the maximum score (0), so the tie condition
holds and the first maximal reference is "b", yet `get_best_match` at
threshold 80 returns absent rather than that reference — refuting
"get_best_match returns the first such maximal reference". -/
theorem c2_counterexample :
    2 ≤ (([['b'], ['c']].filter
        fun r => decide (token_sort_ratio ['a'] r = bestScoreOf ['a'] [['b'], ['c']])).length)
    ∧ List.find?
        (fun r => decide (token_sort_ratio ['a'] r = bestScoreOf ['a'] [['b'], ['c']]))
        [['b'], ['c']] = some ['b']
    ∧ get_best_match [['b'], ['c']] 80 ['a'] = none := by decide

/-- C2 (amended): when more than one reference achieves the maximum
score, `get_best_match` returns the first maximal reference in the
list's enumeration order provided the maximum is ≥ the threshold and
strictly positive, and returns absent otherwise; either way the result
is a function of (candidate, reference list, threshold) only. -/
theorem c2_amended_tie_break (c : Str) (assets : List Str) (T : Nat)
    (hties : 2 ≤ ((assets.filter
        fun r => decide (token_sort_ratio c r = bestScoreOf c assets)).length)) :
    get_best_match assets T c =
      if 0 < bestScoreOf c assets ∧ T ≤ bestScoreOf c assets then
        assets.find? fun r => decide (token_sort_ratio c r = bestScoreOf c assets)
      else none := by
  rw [get_best_match_eq]
  by_cases hc : 0 < bestScoreOf c assets ∧ T ≤ bestScoreOf c assets
  · rw [if_pos hc, if_pos hc]
    apply find?_eq_of_agree
    intro r hr
    have hle : token_sort_ratio c r ≤ bestScoreOf c assets :=
      le_listMax_of_mem (List.mem_map_of_mem _ hr)
    rw [decide_eq_decide]
    omega
  · rw [if_neg hc, if_neg hc]

/-- C2 witness: candidate "ab" against ["ax", "ay"] — both score 50, a
tie; at threshold 40 the first maximal reference "ax" is returned. -/
theorem c2_witness :
    get_best_match [['a', 'x'], ['a', 'y']] 40 ['a', 'b'] =
      if 0 < bestScoreOf ['a', 'b'] [['a', 'x'], ['a', 'y']]
          ∧ 40 ≤ bestScoreOf ['a', 'b'] [['a', 'x'], ['a', 'y']] then
        List.find?
          (fun r => decide (token_sort_ratio ['a', 'b'] r =
            bestScoreOf ['a', 'b'] [['a', 'x'], ['a', 'y']]))
          [['a', 'x'], ['a', 'y']]
      else none :=
  c2_amended_tie_break ['a', 'b'] [['a', 'x'], ['a', 'y']] 40 (by decide)

/-- Helper: with an empty reference list the scan never updates and the
result is absent for every threshold. -/
theorem get_best_match_nil (T : Nat) (c : Str) :
    get_best_match [] T c = none := by
  unfold get_best_match
  dsimp only [List.foldl]
  exact ite_self none

/-- C7: with an empty reference list every candidate gets an absent
match (no error): `get_best_match` returns absent for every input, and
the resolver reports every candidate as unmatched with an empty matched
set. -/
theorem c7_empty_reference_list (c : Str) (T : Nat) (usd_ids : List Str) :
    get_best_match [] T c = none
    ∧ fuzzy_match_usd_assets usd_ids [] T = ([], usd_ids) := by
  refine ⟨get_best_match_nil T c, ?_⟩
  unfold fuzzy_match_usd_assets
  induction usd_ids with
  | nil => rfl
  | cons u ids ih =>
    simp only [List.map_cons, List.filterMap_cons, List.filter_cons,
      get_best_match_nil] at *
    simpa using ih

/-- C8 counterexample: the candidate "a b" appears in the reference
list ["b a", "a b"], its self-score is 100, but the earlier reference
"b a" also scores 100 (token sort makes them equal), so `get_best_match`
selects "b a", not the identical reference — refuting "get_best_match
selects that reference as the match". -/
theorem c8_counterexample :
    (['a', ' ', 'b'] ∈ [['b', ' ', 'a'], ['a', ' ', 'b']])
    ∧ token_sort_ratio ['a', ' ', 'b'] ['a', ' ', 'b'] = 100
    ∧ get_best_match [['b', ' ', 'a'], ['a', ' ', 'b']] 80 ['a', ' ', 'b']
        = some ['b', ' ', 'a']
    ∧ (['b', ' ', 'a'] : Str) ≠ ['a', ' ', 'b'] := by decide

/-- C8 (amended): when the reference list contains a reference
identical to the candidate and the threshold is ≤ 100, the similarity
score for that pair is 100 and `get_best_match` returns a present
match whose score is 100 (the first reference attaining the maximum,
which need not be the identical reference itself). -/
theorem c8_amended_exact_candidate (c : Str) (assets : List Str) (T : Nat)
    (hT : T ≤ 100) (hmem : c ∈ assets) :
    token_sort_ratio c c = 100
    ∧ ∃ r, get_best_match assets T c = some r ∧ token_sort_ratio c r = 100 := by
  have hself := token_sort_ratio_self c
  have hMge : 100 ≤ bestScoreOf c assets := by
    have h := le_listMax_of_mem (List.mem_map_of_mem (token_sort_ratio c) hmem)
    rw [hself] at h
    exact h
  have hMle := bestScoreOf_le_100 c assets
  refine ⟨hself, ?_⟩
  rw [get_best_match_eq,
    if_pos (show 0 < bestScoreOf c assets ∧ T ≤ bestScoreOf c assets from
      by omega)]
  rcases find_best_isSome (show 0 < bestScoreOf c assets from by omega)
    with ⟨r, hr⟩
  refine ⟨r, by rw [hr], ?_⟩
  have h1 := List.find?_some hr
  have h2 := List.mem_of_find?_eq_some hr
  have h3 : token_sort_ratio c r ≤ 100 := token_sort_ratio_le_100 c r
  simp only [decide_eq_true_eq] at h1
  omega

/-- C8 witness. -/
theorem c8_witness :
    token_sort_ratio ['a'] ['a'] = 100
    ∧ ∃ r, get_best_match [['a']] 80 ['a'] = some r
        ∧ token_sort_ratio ['a'] r = 100 :=
  c8_amended_exact_candidate ['a'] [['a']] 80 (by decide) (by decide)

/-- C9: the resolver is deterministic — two runs on equal candidate
lists, equal reference lists (same duplicates, same enumeration order)
and equal thresholds produce identical matched and unmatched results,
including identical tie-break choices. -/
theorem c9_determinism (ids1 assets1 : List Str) (T1 : Nat)
    (ids2 assets2 : List Str) (T2 : Nat)
    (hids : ids1 = ids2) (hassets : assets1 = assets2) (hT : T1 = T2) :
    fuzzy_match_usd_assets ids1 assets1 T1 =
      fuzzy_match_usd_assets ids2 assets2 T2 := by
  subst hids; subst hassets; subst hT; rfl

/-- C9 witness. -/
theorem c9_witness :
    fuzzy_match_usd_assets [['a']] [['a'], ['b']] 80 =
      fuzzy_match_usd_assets [['a']] [['a'], ['b']] 80 :=
  c9_determinism [['a']] [['a'], ['b']] 80 [['a']] [['a'], ['b']] 80 rfl rfl rfl

/-- C10: whenever `get_best_match` returns a present match, the winning
score — the best score over the reference list, attained by the
returned reference — is strictly positive; and with threshold 0 a
candidate scoring 0 against every reference is still reported as
unmatched. -/
theorem c10_positive_winning_score (c : Str) (assets : List Str) (T : Nat) :
    (∀ r, get_best_match assets T c = some r →
        0 < bestScoreOf c assets
        ∧ token_sort_ratio c r = bestScoreOf c assets)
    ∧ ((∀ r ∈ assets, token_sort_ratio c r = 0) →
        get_best_match assets 0 c = none) := by
  constructor
  · intro r h
    rw [get_best_match_eq] at h
    by_cases hc : 0 < bestScoreOf c assets ∧ T ≤ bestScoreOf c assets
    · rw [if_pos hc] at h
      refine ⟨hc.1, ?_⟩
      have h1 := List.find?_some h
      have h2 := List.mem_of_find?_eq_some h
      have h3 : token_sort_ratio c r ≤ bestScoreOf c assets :=
        le_listMax_of_mem (List.mem_map_of_mem _ h2)
      simp only [decide_eq_true_eq] at h1
      omega
    · rw [if_neg hc] at h
      cases h
  · intro hz
    rw [get_best_match_eq]
    have hM : bestScoreOf c assets = 0 := by
      refine Nat.le_antisymm ?_ (Nat.zero_le _)
      apply listMax_le
      intro x hx
      rcases List.mem_map.mp hx with ⟨r, hr, rfl⟩
      rw [hz r hr]
    rw [if_neg (by omega)]

/-- C10 witness. -/
theorem c10_witness :
    (0 < bestScoreOf ['a'] [['a']]
      ∧ token_sort_ratio ['a'] ['a'] = bestScoreOf ['a'] [['a']])
    ∧ get_best_match [['b']] 0 ['a'] = none :=
  ⟨(c10_positive_winning_score ['a'] [['a']] 80).1 ['a'] (by decide),
   (c10_positive_winning_score ['a'] [['b']] 0).2 (by decide)⟩

/-! Lemmas about the enrichment writer. -/

theorem setDTB_path (pr : Prim) (v : String) : (setDTB pr v).path = pr.path := rfl

theorem setDTB_typeName (pr : Prim) (v : String) :
    (setDTB pr v).typeName = pr.typeName := rfl

/-- Writing an attribute twice keeps only the last value. -/
theorem setVal_setVal (l : List (String × String)) (n a b : String) :
    setVal (setVal l n a) n b = setVal l n b := by
  induction l with
  | nil => simp [setVal]
  | cons e l ih =>
    obtain ⟨k, x⟩ := e
    by_cases hk : k = n
    · simp [setVal, hk]
    · simp [setVal, hk, ih]

theorem setDTB_setDTB (pr : Prim) (a b : String) :
    setDTB (setDTB pr a) b = setDTB pr b := by
  unfold setDTB
  simp [setVal_setVal]

/-- The enrichment fold acts independently on each prim. -/
theorem enrich_eq_map (st : List Prim) (m : List (String × String)) :
    enrich_usd_with_dtb_assets st m = st.map fun pr => applyRows pr m := by
  induction m generalizing st with
  | nil =>
    show st = st.map fun pr => applyRows pr []
    simp [applyRows]
  | cons row m ih =>
    show enrich_usd_with_dtb_assets (enrichStep st row) m = _
    rw [ih]
    unfold enrichStep
    rw [List.map_map]
    rfl

/-- A prim after the whole row list: unchanged when no row targets its
path, otherwise its DTB_ID carries the last value written for it. -/
theorem applyRows_eq (m : List (String × String)) :
    ∀ pr : Prim, applyRows pr m =
      match lastWriteFor pr.path m with
      | none => pr
      | some v => setDTB pr v := by
  induction m with
  | nil => intro pr; rfl
  | cons row m ih =>
    intro pr
    show applyRows (if pr.path = row.1 then setDTB pr row.2 else pr) m = _
    by_cases hp : pr.path = row.1
    · rw [if_pos hp, ih]
      have hcons : lastWriteFor pr.path (row :: m) =
          (row.2 :: (m.filter fun r => decide (r.1 = pr.path)).map (·.2)).getLast? := by
        unfold lastWriteFor
        rw [List.filter_cons_of_pos (by simp [hp]), List.map_cons]
      rw [setDTB_path]
      cases hm : lastWriteFor pr.path m with
      | none =>
        have hnil : ((m.filter fun r => decide (r.1 = pr.path)).map (·.2)) = [] := by
          unfold lastWriteFor at hm
          exact List.getLast?_eq_none_iff.mp hm
        rw [hcons, hnil]
        rfl
      | some v =>
        have hne : ((m.filter fun r => decide (r.1 = pr.path)).map (·.2)) ≠ [] := by
          intro h0
          unfold lastWriteFor at hm
          rw [h0] at hm
          cases hm
        obtain ⟨y, ys, hys⟩ := List.exists_cons_of_ne_nil hne
        have hv : (y :: ys).getLast? = some v := by
          unfold lastWriteFor at hm
          rw [hys] at hm
          exact hm
        rw [hcons, hys, List.getLast?_cons_cons, hv]
        exact setDTB_setDTB pr row.2 v
    · rw [if_neg hp, ih]
      have hdrop : lastWriteFor pr.path (row :: m) = lastWriteFor pr.path m := by
        unfold lastWriteFor
        rw [List.filter_cons_of_neg
          (by simp only [decide_eq_true_eq]; exact fun h => hp h.symm)]
      rw [hdrop]

theorem applyRows_path (pr : Prim) (m : List (String × String)) :
    (applyRows pr m).path = pr.path := by
  rw [applyRows_eq]
  cases lastWriteFor pr.path m <;> rfl

theorem applyRows_typeName (pr : Prim) (m : List (String × String)) :
    (applyRows pr m).typeName = pr.typeName := by
  rw [applyRows_eq]
  cases lastWriteFor pr.path m <;> rfl

/-- Setting one attribute does not change the value of any other. -/
theorem lookupAttr_setVal_ne (l : List (String × String)) (n nm v : String)
    (h : n ≠ nm) : lookupAttr n (setVal l nm v) = lookupAttr n l := by
  induction l with
  | nil => simp [setVal, lookupAttr, Ne.symm h]
  | cons e l ih =>
    obtain ⟨k, x⟩ := e
    by_cases hk : k = nm
    · subst hk
      simp [setVal, lookupAttr, Ne.symm h]
    · by_cases hn : k = n
      · simp [setVal, hk, lookupAttr, hn, h]
      · simp [setVal, hk, lookupAttr, hn, ih]

theorem applyRows_lookup (pr : Prim) (m : List (String × String)) (n : String)
    (h : n ≠ dtbAttrName) :
    lookupAttr n (applyRows pr m).attrs = lookupAttr n pr.attrs := by
  rw [applyRows_eq]
  cases lastWriteFor pr.path m with
  | none => rfl
  | some v => exact lookupAttr_setVal_ne pr.attrs n dtbAttrName v h

/-- Writing an attribute yields exactly one copy when none existed and
keeps the multiplicity otherwise. -/
theorem countAttr_setVal (l : List (String × String)) (n v : String) :
    countAttr n (setVal l n v) = max 1 (countAttr n l) := by
  induction l with
  | nil => simp [setVal, countAttr]
  | cons e l ih =>
    obtain ⟨k, x⟩ := e
    by_cases hk : k = n
    · subst hk
      rw [show setVal ((k, x) :: l) k v = (k, v) :: l from by simp [setVal]]
      have h1 : countAttr k ((k, v) :: l) = (l.filter fun e => decide (e.1 = k)).length + 1 := by
        unfold countAttr
        rw [List.filter_cons_of_pos (by simp), List.length_cons]
      have h2 : countAttr k ((k, x) :: l) = (l.filter fun e => decide (e.1 = k)).length + 1 := by
        unfold countAttr
        rw [List.filter_cons_of_pos (by simp), List.length_cons]
      rw [h1, h2]
      omega
    · rw [show setVal ((k, x) :: l) n v = (k, x) :: setVal l n v from by simp [setVal, hk]]
      have h1 : countAttr n ((k, x) :: setVal l n v) = countAttr n (setVal l n v) := by
        unfold countAttr
        rw [List.filter_cons_of_neg (by simp [hk])]
      have h2 : countAttr n ((k, x) :: l) = countAttr n l := by
        unfold countAttr
        rw [List.filter_cons_of_neg (by simp [hk])]
      rw [h1, h2, ih]

theorem applyRows_count (pr : Prim) (m : List (String × String)) :
    countAttr dtbAttrName (applyRows pr m).attrs
      ≤ max 1 (countAttr dtbAttrName pr.attrs) := by
  rw [applyRows_eq]
  cases lastWriteFor pr.path m with
  | none => exact Nat.le_max_right _ _
  | some v =>
    show countAttr dtbAttrName (setVal pr.attrs dtbAttrName v) ≤ _
    rw [countAttr_setVal]

/-- C3: running the enrichment writer twice against the same matched
set yields the same scene as one run — each DTB_ID write overwrites the
attribute value, so the fold is idempotent. -/
theorem c3_enrich_idempotent (st : List Prim)
    (matched : List (String × String)) :
    enrich_usd_with_dtb_assets (enrich_usd_with_dtb_assets st matched) matched
      = enrich_usd_with_dtb_assets st matched := by
  simp only [enrich_eq_map, List.map_map]
  apply List.map_congr_left
  intro pr _
  show applyRows (applyRows pr matched) matched = applyRows pr matched
  conv_lhs => rw [applyRows_eq]
  rw [applyRows_path]
  cases hw : lastWriteFor pr.path matched with
  | none => rfl
  | some v =>
    rw [applyRows_eq, hw]
    exact setDTB_setDTB pr v v

/-- C4: enrichment never alters node topology — the number of prims,
their paths and their type names are unchanged, every attribute other
than DTB_ID keeps its value, and each prim ends with at most one DTB_ID
attribute (at most the one it already had, or exactly one). -/
theorem c4_enrich_frame (st : List Prim) (matched : List (String × String)) :
    (enrich_usd_with_dtb_assets st matched).length = st.length
    ∧ (enrich_usd_with_dtb_assets st matched).map Prim.path = st.map Prim.path
    ∧ (enrich_usd_with_dtb_assets st matched).map Prim.typeName
        = st.map Prim.typeName
    ∧ (∀ (i : Nat) (n : String), n ≠ dtbAttrName →
        ((enrich_usd_with_dtb_assets st matched)[i]?).map
            (fun pr => lookupAttr n pr.attrs)
          = (st[i]?).map fun pr => lookupAttr n pr.attrs)
    ∧ (∀ i : Nat,
        (((enrich_usd_with_dtb_assets st matched)[i]?).map
            (fun pr => countAttr dtbAttrName pr.attrs)).getD 0
          ≤ max 1 (((st[i]?).map
              fun pr => countAttr dtbAttrName pr.attrs).getD 0)) := by
  refine ⟨?_, ?_, ?_, ?_, ?_⟩
  · rw [enrich_eq_map, List.length_map]
  · rw [enrich_eq_map, List.map_map]
    exact List.map_congr_left fun pr _ => applyRows_path pr matched
  · rw [enrich_eq_map, List.map_map]
    exact List.map_congr_left fun pr _ => applyRows_typeName pr matched
  · intro i n hn
    rw [enrich_eq_map, List.getElem?_map]
    cases st[i]? with
    | none => rfl
    | some pr =>
      show some (lookupAttr n (applyRows pr matched).attrs) = _
      rw [applyRows_lookup pr matched n hn]
      rfl
  · intro i
    rw [enrich_eq_map, List.getElem?_map]
    cases st[i]? with
    | none => exact Nat.zero_le _
    | some pr =>
      show countAttr dtbAttrName (applyRows pr matched).attrs ≤ _
      exact applyRows_count pr matched

/-- C4 witness. -/
theorem c4_witness :
    ((enrich_usd_with_dtb_assets sampleStage sampleMatched)[0]?).map
        (fun pr => lookupAttr sampleAttrName pr.attrs)
      = (sampleStage[0]?).map fun pr => lookupAttr sampleAttrName pr.attrs :=
  (c4_enrich_frame sampleStage sampleMatched).2.2.2.1 0 sampleAttrName (by decide)

/-! Lemmas about path splitting, for the extractor. -/

theorem splitOnChar_ne_nil (sep : Char) : ∀ l : Str, splitOnChar sep l ≠ [] := by
  intro l
  induction l with
  | nil => simp [splitOnChar]
  | cons c rest ih =>
    simp only [splitOnChar]
    by_cases h : c = sep
    · rw [if_pos h]; simp
    · rw [if_neg h]
      cases hs : splitOnChar sep rest with
      | nil => simp
      | cons s ss => simp

theorem splitOnChar_cons_pos (sep c : Char) (l : Str) (h : c = sep) :
    splitOnChar sep (c :: l) = [] :: splitOnChar sep l := by
  simp only [splitOnChar, if_pos h]

theorem splitOnChar_cons_neg (sep c : Char) (l : Str) (h : ¬ c = sep) :
    splitOnChar sep (c :: l) =
      match splitOnChar sep l with
      | [] => [[c]]
      | s :: ss => (c :: s) :: ss := by
  simp only [splitOnChar, if_neg h]

/-- Splitting distributes over an occurrence of the separator. -/
theorem splitOnChar_append (sep : Char) (a b : Str) :
    splitOnChar sep (a ++ sep :: b) = splitOnChar sep a ++ splitOnChar sep b := by
  induction a with
  | nil =>
    show splitOnChar sep (sep :: b) = splitOnChar sep [] ++ splitOnChar sep b
    rw [splitOnChar_cons_pos sep sep b rfl]
    rfl
  | cons c a ih =>
    show splitOnChar sep (c :: (a ++ sep :: b))
      = splitOnChar sep (c :: a) ++ splitOnChar sep b
    by_cases h : c = sep
    · rw [splitOnChar_cons_pos sep c _ h, splitOnChar_cons_pos sep c a h, ih,
        List.cons_append]
    · rw [splitOnChar_cons_neg sep c _ h, splitOnChar_cons_neg sep c a h, ih]
      cases hs : splitOnChar sep a with
      | nil => exact absurd hs (splitOnChar_ne_nil sep a)
      | cons s ss => rfl

/-- A separator-free string splits into itself. -/
theorem splitOnChar_no_sep (sep : Char) (l : Str) (h : ∀ ch ∈ l, ch ≠ sep) :
    splitOnChar sep l = [l] := by
  induction l with
  | nil => rfl
  | cons c rest ih =>
    have hc : c ≠ sep := h c (List.mem_cons_self _ _)
    simp only [splitOnChar, if_neg hc]
    rw [ih fun ch hch => h ch (List.mem_cons_of_mem _ hch)]

/-- Splitting a prim path recovers a leading empty segment followed by
the path's segments. -/
theorem splitOnChar_primPath (segs : List Str)
    (hsegs : ∀ seg ∈ segs, ∀ ch ∈ seg, ch ≠ '/') :
    splitOnChar '/' (primPathString segs) = [] :: segs := by
  induction segs with
  | nil => rfl
  | cons seg rest ih =>
    have hstep : primPathString (seg :: rest) =
        '/' :: (seg ++ primPathString rest) := by
      simp [primPathString]
    rw [hstep, splitOnChar_cons_pos '/' '/' _ rfl]
    congr 1
    cases rest with
    | nil =>
      rw [show primPathString [] = [] from rfl, List.append_nil]
      exact splitOnChar_no_sep '/' seg (hsegs seg (List.mem_cons_self _ _))
    | cons r rs =>
      have h2 : primPathString (r :: rs) = '/' :: (r ++ primPathString rs) := by
        simp [primPathString]
      rw [h2, splitOnChar_append,
        splitOnChar_no_sep '/' seg (hsegs seg (List.mem_cons_self _ _))]
      have h3 : splitOnChar '/' ('/' :: (r ++ primPathString rs)) = [] :: r :: rs := by
        rw [← h2]
        exact ih fun s hs => hsegs s (List.mem_cons_of_mem _ hs)
      rw [splitOnChar_cons_pos '/' '/' _ rfl] at h3
      injection h3 with h31 h32
      rw [h32]
      rfl

/-- C5: for every node path the extractor emits, the derived
USDAssetID — the last item of the Spark split on '/' — equals the last
non-empty segment of the path. -/
theorem c5_candidate_id (prims : List (List Str × Str))
    (h : ∀ pr ∈ prims, ValidPrim pr) :
    ∀ row ∈ read_usd_metadata_rows prims,
      lastNonEmptySegment row.1 = some row.2 := by
  intro row hrow
  unfold read_usd_metadata_rows at hrow
  rcases List.mem_map.mp hrow with ⟨pr, hpr, rfl⟩
  obtain ⟨hne, hsegs⟩ := h pr (List.mem_of_mem_filter hpr)
  have hsplit := splitOnChar_primPath pr.1 fun seg hs => (hsegs seg hs).2
  dsimp only
  unfold lastNonEmptySegment USDAssetID_of
  rw [hsplit]
  have hfilter : (([] :: pr.1).filter fun s => !List.isEmpty s) = pr.1 := by
    rw [List.filter_cons_of_neg (by simp)]
    exact List.filter_eq_self.mpr fun s hs => by
      simp only [Bool.not_eq_true', List.isEmpty_eq_false]
      exact (hsegs s hs).1
  rw [hfilter]
  obtain ⟨x, xs, hx⟩ := List.exists_cons_of_ne_nil hne
  rw [hx, List.getLast?_cons_cons]
  cases hlast : (x :: xs).getLast? with
  | none => exact absurd (List.getLast?_eq_none_iff.mp hlast) (List.cons_ne_nil x xs)
  | some v => rfl

/-- C5 witness. -/
theorem c5_witness :
    lastNonEmptySegment
        (primPathString [['W', 'o', 'r', 'l', 'd'], ['P', 'u', 'm', 'p']])
      = some (USDAssetID_of
          (primPathString [['W', 'o', 'r', 'l', 'd'], ['P', 'u', 'm', 'p']])) :=
  c5_candidate_id samplePrims (by decide)
    (primPathString [['W', 'o', 'r', 'l', 'd'], ['P', 'u', 'm', 'p']],
      USDAssetID_of (primPathString [['W', 'o', 'r', 'l', 'd'], ['P', 'u', 'm', 'p']]))
    (by decide)

/-- C6 (code bug): when `Usd.Stage.Open` fails, `read_usd_metadata`
propagates the raw library error unchanged to the caller — there is no
handler around the opening, so the caller gets no distinguished
open-failure signal and no empty result, contrary to the spec's
SourceUnavailable policy (which the sibling functions implement). -/
theorem c6_open_failure_propagates (e : String) :
    read_usd_metadata (Except.error e) = Except.error e := rfl
